import Mathlib

/-!
Shallow embedding of the metadata extraction engine of `tag2dir-rs`
(`src/src-tauri/src/metadata.rs`).

Modelling conventions:
* Rust `&[u8]` / `Vec<u8>` is `List Nat` (each element a byte value).
* Rust `String` / `&str` is `List Char` (code points).  Rust sorts strings by
  their UTF-8 bytes; since UTF-8 is order-preserving on code points, comparing
  `List Char` pointwise by code point gives exactly the same order.
* The lossy UTF-8 view built by `String.from_utf8_lossy` in
  `extract_xmp_from_bytes` is modelled at the byte level: the searched markers
  are pure ASCII, and an ASCII substring occurs in the lossy view exactly when
  it occurs in the raw bytes (ASCII bytes decode to themselves and adjacency
  is preserved), so the marker searches are performed directly on the bytes.
* A Rust panic (out-of-bounds index / reversed slice range) is the `none`
  value of an `Option` result; `some` is normal return.
* External collaborators (the `kamadak-exif` container reader and the
  `roxmltree` XML text parser) are parameters: the engine receives the
  container's relevant fields (`ExifData`) and a parse function
  `Bytes → Option Xml`.  All logic of `metadata.rs` itself is embedded.
* The two hand-written byte-scanning loops are embedded with an explicit
  fuel argument (structural recursion); the top-level entry points supply
  `data.length + 1` fuel, which is sufficient because each iteration strictly
  increases the scan position.
-/

/-- Byte strings: Rust `&[u8]`. -/
abbrev Bytes := List Nat

/-- Rust strings, as lists of code points. -/
abbrev Str := List Char

/-- Code points of a Lean string literal (used for ASCII constants). -/
def strOf (s : String) : Str := s.toList

/-- Byte values of an ASCII string literal. -/
def asciiBytes (s : String) : Bytes := s.toList.map Char.toNat

/-- Does `n` occur as a prefix of `l`?  (Decidable, by direct recursion.) -/
def prefixAt {α : Type} [DecidableEq α] : List α → List α → Bool
  | [], _ => true
  | _ :: _, [] => false
  | a :: as, b :: bs => if a = b then prefixAt as bs else false

/-- Auxiliary scan for `findSeq`: first index `≥ i` where `n` starts in the
remaining haystack. -/
def findSeqGo {α : Type} [DecidableEq α] (n : List α) : List α → Nat → Option Nat
  | [], i => if prefixAt n [] then some i else none
  | a :: rest, i => if prefixAt n (a :: rest) then some i else findSeqGo n rest (i + 1)

/-- First occurrence of `n` inside `h` (index of its first element).
Models both Rust `str::find` (on the byte view) and the repository's
`find_subsequence` helper, which scans `haystack.windows(needle.len())`. -/
def findSeq {α : Type} [DecidableEq α] (h n : List α) : Option Nat :=
  findSeqGo n h 0

/-- The repository's `find_subsequence` (metadata.rs, lines 270-274),
specialised to byte slices. -/
def find_subsequence (haystack needle : Bytes) : Option Nat :=
  findSeq haystack needle

/-- Rust slice/str indexing `&s[a..b]`: panics (`none`) unless `a ≤ b ≤ len`. -/
def sliceRange {α : Type} (l : List α) (a b : Nat) : Option (List α) :=
  if a ≤ b ∧ b ≤ l.length then some ((l.drop a).take (b - a)) else none

/-- Unicode `White_Space` property, as used by Rust `char::is_whitespace`. -/
def isRustWhitespace (c : Char) : Bool :=
  let n := c.toNat
  (0x09 ≤ n ∧ n ≤ 0x0D) ∨ n = 0x20 ∨ n = 0x85 ∨ n = 0xA0 ∨ n = 0x1680 ∨
  (0x2000 ≤ n ∧ n ≤ 0x200A) ∨ n = 0x2028 ∨ n = 0x2029 ∨ n = 0x202F ∨
  n = 0x205F ∨ n = 0x3000

/-- Rust `str::trim`: strip whitespace from both ends. -/
def rustTrim (s : Str) : Str :=
  ((s.dropWhile isRustWhitespace).reverse.dropWhile isRustWhitespace).reverse

/-- Rust `char::to_lowercase`, restricted to the ASCII mapping (the only part
exercised by the category keywords `people` / `person` / `人物` / `人`;
non-ASCII letters are left unchanged in this model). -/
def toLowerChar (c : Char) : Char :=
  if 'A' ≤ c ∧ c ≤ 'Z' then Char.ofNat (c.toNat + 32) else c

/-- Rust `str::to_lowercase` under the same ASCII restriction. -/
def toLowerStr (s : Str) : Str := s.map toLowerChar

/-- Rust `str::contains` for a string pattern (on the code-point view). -/
def strContains (h n : Str) : Bool := (findSeq h n).isSome

/-- Split a list at every occurrence of the separator element, keeping empty
segments: Rust `str::split(c)`. -/
def splitSep {α : Type} [DecidableEq α] (sep : α) : List α → List (List α)
  | [] => [[]]
  | a :: rest =>
    match splitSep sep rest with
    | [] => [[]]
    | seg :: segs => if a = sep then [] :: seg :: segs else (a :: seg) :: segs

/-- Latin-1 fallback decoding: each byte is one code point (Rust `b as char`). -/
def latin1Char (b : Nat) : Char := Char.ofNat b

/-- Strict UTF-8 decoder: models Rust `String::from_utf8` (`some` on valid
UTF-8, `none` on any invalid, overlong or surrogate sequence). -/
def utf8Decode : Bytes → Option Str
  | [] => some []
  | b :: rest =>
    if b < 0x80 then (utf8Decode rest).map (fun t => Char.ofNat b :: t)
    else if b < 0xC2 then none
    else if b < 0xE0 then
      match rest with
      | c1 :: rest' =>
        if 0x80 ≤ c1 ∧ c1 < 0xC0 then
          (utf8Decode rest').map (fun t => Char.ofNat ((b - 0xC0) * 64 + (c1 - 0x80)) :: t)
        else none
      | [] => none
    else if b < 0xF0 then
      match rest with
      | c1 :: c2 :: rest' =>
        if (0x80 ≤ c1 ∧ c1 < 0xC0) ∧ (0x80 ≤ c2 ∧ c2 < 0xC0) ∧
           (b ≠ 0xE0 ∨ 0xA0 ≤ c1) ∧ (b ≠ 0xED ∨ c1 < 0xA0) then
          (utf8Decode rest').map
            (fun t => Char.ofNat (((b - 0xE0) * 64 + (c1 - 0x80)) * 64 + (c2 - 0x80)) :: t)
        else none
      | _ => none
    else if b < 0xF5 then
      match rest with
      | c1 :: c2 :: c3 :: rest' =>
        if (0x80 ≤ c1 ∧ c1 < 0xC0) ∧ (0x80 ≤ c2 ∧ c2 < 0xC0) ∧ (0x80 ≤ c3 ∧ c3 < 0xC0) ∧
           (b ≠ 0xF0 ∨ 0x90 ≤ c1) ∧ (b ≠ 0xF4 ∨ c1 < 0x90) then
          (utf8Decode rest').map
            (fun t =>
              Char.ofNat ((((b - 0xF0) * 64 + (c1 - 0x80)) * 64 + (c2 - 0x80)) * 64 + (c3 - 0x80)) :: t)
        else none
      | _ => none
    else none

/-- Group bytes pairwise as little-endian 16-bit units: Rust
`bytes.chunks_exact(2).map(u16::from_le_bytes)` (a trailing odd byte is
dropped, as `chunks_exact` does). -/
def utf16Units : Bytes → List Nat
  | a :: b :: rest => (a + 256 * b) :: utf16Units rest
  | _ => []

/-- Rust `String::from_utf16_lossy`: surrogate pairs combine, unpaired
surrogates become U+FFFD. -/
def utf16LossyDecode : List Nat → Str
  | [] => []
  | [u] =>
    if u < 0xD800 ∨ 0xE000 ≤ u then [Char.ofNat u] else ['�']
  | u :: v :: rest =>
    if u < 0xD800 ∨ 0xE000 ≤ u then
      Char.ofNat u :: utf16LossyDecode (v :: rest)
    else if u < 0xDC00 ∧ (0xDC00 ≤ v ∧ v < 0xE000) then
      Char.ofNat (0x10000 + (u - 0xD800) * 0x400 + (v - 0xDC00)) :: utf16LossyDecode rest
    else
      '�' :: utf16LossyDecode (v :: rest)

/-- Rust `str::trim_end_matches('\0')`: drop every trailing NUL. -/
def trimEndZeros (s : Str) : Str :=
  (s.reverse.dropWhile (fun c => c = Char.ofNat 0)).reverse

/-- Rust `str::trim_matches('"')`: drop every leading and trailing quote. -/
def trimQuotes (s : Str) : Str :=
  ((s.dropWhile (fun c => c = '"')).reverse.dropWhile (fun c => c = '"')).reverse

/-! ## Sorting and deduplication (Rust `Vec::sort` + `Vec::dedup`) -/

/-- Lexicographic order on strings, comparing code points: extensionally the
byte-wise ordinal order Rust's `String: Ord` uses (UTF-8 preserves code-point
order). -/
def strLe : Str → Str → Bool
  | [], _ => true
  | _ :: _, [] => false
  | a :: as, b :: bs =>
    if a.toNat < b.toNat then true
    else if b.toNat < a.toNat then false
    else strLe as bs

/-- The order `strLe` as a proposition. -/
def strLeP (a b : Str) : Prop := strLe a b = true

/-- Insert into a `strLe`-sorted list. -/
def insertStr (s : Str) : List Str → List Str
  | [] => [s]
  | t :: ts => if strLe s t then s :: t :: ts else t :: insertStr s ts

/-- Insertion sort by `strLe`: produces the same list as Rust `Vec::sort`
(both are the sorted permutation, and equal elements are identical values). -/
def sortStrs : List Str → List Str
  | [] => []
  | s :: ss => insertStr s (sortStrs ss)

/-- Auxiliary for `dedupAdj`: drop elements equal to the last kept one. -/
def dedupGo (prev : Str) : List Str → List Str
  | [] => []
  | b :: rest => if b = prev then dedupGo prev rest else b :: dedupGo b rest

/-- Rust `Vec::dedup`: remove consecutive duplicates, keeping the first of
each run. -/
def dedupAdj : List Str → List Str
  | [] => []
  | a :: rest => a :: dedupGo a rest

/-- The aggregation `v.sort(); v.dedup();` applied in `extract_person_tags`. -/
def sortDedup (l : List Str) : List Str := dedupAdj (sortStrs l)

/-! ## XML document model

`roxmltree` is an external collaborator; the engine only consumes a parsed
tree through: document-order traversal (`descendants`), the local
(prefix-stripped) tag name, attributes (local name and value), and `text()`
(the value of a node's first child when that child is a text node). -/

/-- Parsed XML nodes as the engine observes them through `roxmltree`. -/
inductive Xml : Type where
  | elem (name : Str) (attrs : List (Str × Str)) (children : List Xml)
  | text (t : Str)

/-- All nodes of the subtree rooted at a node, in document order, the node
itself first: `roxmltree::Node::descendants`. -/
def Xml.descendants : Xml → List Xml
  | .text t => [.text t]
  | .elem n a cs => .elem n a cs :: go cs
where
  /-- Descendants of a forest, in order. -/
  go : List Xml → List Xml
  | [] => []
  | c :: cs => c.descendants ++ go cs

/-- Local (namespace-prefix-stripped) tag name: `node.tag_name().name()`;
empty for text nodes. -/
def Xml.localName : Xml → Str
  | .elem n _ _ => n
  | .text _ => []

/-- Attributes of a node (local name, value): `node.attributes()`. -/
def Xml.attrsOf : Xml → List (Str × Str)
  | .elem _ a _ => a
  | .text _ => []

/-- Node text: `roxmltree::Node::text` — a text node's own value, or for an
element the value of its first child when that child is a text node. -/
def Xml.textOf : Xml → Option Str
  | .text t => some t
  | .elem _ _ (Xml.text t :: _) => some t
  | .elem _ _ _ => none

/-! ## XmpHeuristicDecoder: `parse_xmp_xml` / `extract_region_persons`
(metadata.rs, lines 131-249) -/

/-- Person candidates contributed by one descendant of a region node
(`extract_region_persons` loop body): `Name` text, `PersonDisplayName` text,
then attributes whose lower-cased name contains `"name"` or `"person"` with a
trimmed value that is non-empty and not `"true"`/`"false"`. -/
def regionDescendantPersons (d : Xml) : List Str :=
  (if d.localName = strOf "Name" then
     match d.textOf with
     | some t => if rustTrim t ≠ [] then [rustTrim t] else []
     | none => []
   else []) ++
  (if d.localName = strOf "PersonDisplayName" then
     match d.textOf with
     | some t => if rustTrim t ≠ [] then [rustTrim t] else []
     | none => []
   else []) ++
  d.attrsOf.flatMap (fun p =>
    if strContains (toLowerStr p.1) (strOf "name") ∨
       strContains (toLowerStr p.1) (strOf "person") then
      if rustTrim p.2 ≠ [] ∧ rustTrim p.2 ≠ strOf "true" ∧ rustTrim p.2 ≠ strOf "false" then
        [rustTrim p.2]
      else []
    else [])

/-- The repository's `extract_region_persons` (metadata.rs, lines 213-249),
returning the emitted person list instead of mutating a vector. -/
def extract_region_persons (node : Xml) : List Str :=
  node.descendants.flatMap regionDescendantPersons

/-- Persons contributed by one `li` descendant of a `hierarchicalSubject`
element: trim, require a `|`, split on `|`, require ≥ 2 parts and a
category (lower-cased first part) containing `people`/`person`/`人物`/`人`,
then emit the trimmed last part. -/
def hierSubjectLiPersons (c : Xml) : List Str :=
  if c.localName = strOf "li" then
    match c.textOf with
    | some t =>
      let tt := rustTrim t
      if tt.contains '|' then
        let parts := splitSep '|' tt
        if parts.length ≥ 2 then
          let category := toLowerStr (parts.headD [])
          if strContains category (strOf "people") ∨ strContains category (strOf "person") ∨
             strContains category (strOf "人物") ∨ strContains category (strOf "人") then
            [rustTrim (parts.getLastD [])]
          else []
        else []
      else []
    | none => []
  else []

/-- Persons contributed by one `li` descendant of a digiKam `TagsList`
element: same shape with separator `/` and categories
`people`/`person`/`人物`. -/
def tagsListLiPersons (c : Xml) : List Str :=
  if c.localName = strOf "li" then
    match c.textOf with
    | some t =>
      let tt := rustTrim t
      if tt.contains '/' then
        let parts := splitSep '/' tt
        if parts.length ≥ 2 then
          let category := toLowerStr (parts.headD [])
          if strContains category (strOf "people") ∨ strContains category (strOf "person") ∨
             strContains category (strOf "人物") then
            [rustTrim (parts.getLastD [])]
          else []
        else []
      else []
    | none => []
  else []

/-- Person candidates contributed by one node of the document in the
`parse_xmp_xml` traversal: region rules, then `hierarchicalSubject`,
then `TagsList`, in the order of the source's `if` blocks. -/
def nodePersons (n : Xml) : List Str :=
  (if n.localName = strOf "RegionList" ∨ n.localName = strOf "Regions" ∨
      n.localName = strOf "RegionInfo" then
     extract_region_persons n
   else []) ++
  (if n.localName = strOf "hierarchicalSubject" then
     n.descendants.flatMap hierSubjectLiPersons
   else []) ++
  (if n.localName = strOf "TagsList" then
     n.descendants.flatMap tagsListLiPersons
   else [])

/-- Keyword candidates contributed by one node: for a `subject` element,
each `li` descendant's trimmed non-empty text. -/
def nodeKeywords (n : Xml) : List Str :=
  if n.localName = strOf "subject" then
    n.descendants.flatMap (fun c =>
      if c.localName = strOf "li" then
        match c.textOf with
        | some t => if rustTrim t ≠ [] then [rustTrim t] else []
        | none => []
      else [])
  else []

/-- The repository's `parse_xmp_xml` (metadata.rs, lines 131-210) applied to
an already-parsed document, returning `(persons, keywords)` instead of
mutating two vectors.  The traversal visits every node of the document in
document order, exactly as `doc.descendants()` does. -/
def parse_xmp_xml (doc : Xml) : List Str × List Str :=
  (doc.descendants.flatMap nodePersons, doc.descendants.flatMap nodeKeywords)

/-! ## SegmentLocator: `extract_xmp_from_bytes` (metadata.rs, lines 103-128) -/

/-- ASCII bytes of the marker `"<x:xmpmeta"`. -/
def xmpmetaOpenB : Bytes := asciiBytes "<x:xmpmeta"

/-- ASCII bytes of the marker `"</x:xmpmeta>"`. -/
def xmpmetaCloseB : Bytes := asciiBytes "</x:xmpmeta>"

/-- ASCII bytes of the marker `"<?xpacket begin"`. -/
def xpacketBeginB : Bytes := asciiBytes "<?xpacket begin"

/-- ASCII bytes of the marker `"<?xpacket end"`. -/
def xpacketEndB : Bytes := asciiBytes "<?xpacket end"

/-- The `for (start_marker, end_marker) in ... zip ...` loop of
`extract_xmp_from_bytes`.  Result: `none` = panic (the nested-span slice
`&xml_chunk[meta_start..meta_end + 12]` with a reversed range), `some none` =
no XMP found, `some (some xml)` = extracted chunk. -/
def xmpMarkerLoop (data : Bytes) : List (Bytes × Bytes) → Option (Option Bytes)
  | [] => some none
  | (sm, em) :: rest =>
    match findSeq data sm with
    | none => xmpMarkerLoop data rest
    | some start =>
      match findSeq (data.drop start) em with
      | none => xmpMarkerLoop data rest
      | some endPos =>
        match sliceRange data start (start + endPos + em.length) with
        | none => none
        | some chunk =>
          match findSeq chunk xmpmetaOpenB with
          | some ms =>
            match findSeq chunk xmpmetaCloseB with
            | some me => (sliceRange chunk ms (me + xmpmetaCloseB.length)).map some
            | none => some (some chunk)
          | none => some (some chunk)

/-- The repository's `extract_xmp_from_bytes`: try the marker pairs
`("<x:xmpmeta", "</x:xmpmeta>")` then `("<?xpacket begin", "<?xpacket end")`
in order (the byte view stands for the lossy UTF-8 view, see the header). -/
def extract_xmp_from_bytes (data : Bytes) : Option (Option Bytes) :=
  xmpMarkerLoop data [(xmpmetaOpenB, xmpmetaCloseB), (xpacketBeginB, xpacketEndB)]

/-- The repository's `read_xmp_data` (metadata.rs, lines 87-100), with the
file's bytes already read and the external `roxmltree` parser passed as
`parseFn` (`none` = XML parse error, which the source swallows). -/
def read_xmp_data (parseFn : Bytes → Option Xml) (data : Bytes) :
    Option (List Str × List Str) :=
  match extract_xmp_from_bytes data with
  | none => none
  | some none => some ([], [])
  | some (some xml) =>
    match parseFn xml with
    | some doc => some (parse_xmp_xml doc)
    | none => some ([], [])

/-! ## ExifXpKeywordsDecoder: `read_exif_keywords` (metadata.rs, lines 45-84) -/

/-- The fields of the external EXIF container reader that
`read_exif_keywords` consumes: the raw byte value of the private tag
`0x9C9E` (XPKeywords) when present with `Value::Byte`, and the displayed
`ImageDescription` value when present. -/
structure ExifData where
  xpKeywordsBytes : Option Bytes
  imageDescription : Option Str

/-- The repository's `read_exif_keywords`: `input = none` models the
container reader failing (file unreadable or no EXIF), which the source
propagates as `Err`.  The `ImageDescription` block of the source computes a
trimmed description but its conditional body is empty, so the value is bound
and discarded here exactly as in the source. -/
def read_exif_keywords (input : Option ExifData) : Option (List Str) :=
  match input with
  | none => none
  | some d =>
    let keywords : List Str :=
      match d.xpKeywordsBytes with
      | some bytes =>
        let units := utf16Units bytes
        let text := trimEndZeros (utf16LossyDecode units)
        ((splitSep ';' text).map rustTrim).filter (fun k => k ≠ [])
      | none => []
    let _desc : Str :=
      match d.imageDescription with
      | some desc => rustTrim (trimQuotes desc)
      | none => []
    some keywords

/-! ## IptcBlockDecoder: `parse_iptc_records` / `parse_iptc_from_photoshop`
(metadata.rs, lines 277-371) -/

/-- The inner IPTC-IIM record loop of `parse_iptc_records`, with explicit
fuel.  `none` = out-of-bounds read (Rust would panic); `some acc` = the loop
finished or broke with accumulated keywords `acc`. -/
def iptcGo (data : Bytes) : Nat → Nat → List Str → Option (List Str)
  | 0, _, acc => some acc
  | fuel + 1, pos, acc =>
    if pos + 5 ≤ data.length then
      match data[pos]? with
      | none => none
      | some b0 =>
        if b0 ≠ 0x1C then iptcGo data fuel (pos + 1) acc
        else
          match data[pos + 1]?, data[pos + 2]?, data[pos + 3]?, data[pos + 4]? with
          | some rn, some dn, some l1, some l2 =>
            let fieldLen := 256 * l1 + l2
            let pos2 := pos + 5
            if pos2 + fieldLen > data.length then some acc
            else
              match (if rn = 2 ∧ dn = 25 then
                       match sliceRange data pos2 (pos2 + fieldLen) with
                       | none => none
                       | some payload =>
                         match utf8Decode payload with
                         | some s =>
                           some (if rustTrim s ≠ [] then acc ++ [rustTrim s] else acc)
                         | none =>
                           some (if rustTrim (payload.map latin1Char) ≠ [] then
                                   acc ++ [rustTrim (payload.map latin1Char)]
                                 else acc)
                     else some acc) with
              | none => none
              | some acc2 => iptcGo data fuel (pos2 + fieldLen) acc2
          | _, _, _, _ => none
    else some acc

/-- The repository's `parse_iptc_records` (metadata.rs, lines 329-371):
scan a resource payload for `0x1C` records and collect Keywords (2:25)
fields, appended after the already-accumulated keywords `acc`.  The fuel
`data.length + 1` is enough: every iteration strictly increases `pos`. -/
def parse_iptc_records (data : Bytes) (acc : List Str) : Option (List Str) :=
  iptcGo data (data.length + 1) 0 acc

/-- ASCII bytes of the resource-block signature `"8BIM"`. -/
def bytes8BIM : Bytes := asciiBytes "8BIM"

/-- The padded pascal-name length of an 8BIM block: name byte count `b6`
plus its length byte, padded to an even total (metadata.rs, lines 289-294). -/
def paddedLen (b6 : Nat) : Nat := if (b6 + 1) % 2 ≠ 0 then b6 + 2 else b6 + 1

/-- The outer 8BIM resource-block loop of `parse_iptc_from_photoshop`, with
explicit fuel.  `none` = out-of-bounds read (Rust panic); `some acc` = loop
finished or broke. -/
def psGo (data : Bytes) : Nat → Nat → List Str → Option (List Str)
  | 0, _, acc => some acc
  | fuel + 1, pos, acc =>
    if pos + 12 ≤ data.length then
      match sliceRange data pos (pos + 4) with
      | none => none
      | some sig =>
        if sig ≠ bytes8BIM then psGo data fuel (pos + 1) acc
        else
          match data[pos + 4]?, data[pos + 5]?, data[pos + 6]? with
          | some b4, some b5, some b6 =>
            let resourceId := 256 * b4 + b5
            let sizeOffset := pos + 6 + paddedLen b6
            if sizeOffset + 4 > data.length then some acc
            else
              match data[sizeOffset]?, data[sizeOffset + 1]?,
                    data[sizeOffset + 2]?, data[sizeOffset + 3]? with
              | some s0, some s1, some s2, some s3 =>
                let blockSize := ((s0 * 256 + s1) * 256 + s2) * 256 + s3
                let blockStart := sizeOffset + 4
                let blockEnd := blockStart + blockSize
                if blockEnd > data.length then some acc
                else
                  match (if resourceId = 0x0404 then
                           match sliceRange data blockStart blockEnd with
                           | none => none
                           | some payload => parse_iptc_records payload acc
                         else some acc) with
                  | none => none
                  | some acc2 =>
                    psGo data fuel (if blockEnd % 2 ≠ 0 then blockEnd + 1 else blockEnd) acc2
              | _, _, _, _ => none
          | _, _, _ => none
    else some acc

/-- The repository's `parse_iptc_from_photoshop` (metadata.rs, lines
277-326).  The fuel `data.length + 1` is enough: every iteration strictly
increases `pos` (a matched block advances it by at least 11). -/
def parse_iptc_from_photoshop (data : Bytes) (acc : List Str) : Option (List Str) :=
  psGo data (data.length + 1) 0 acc

/-- The 14-byte marker `"Photoshop 3.0\0"`. -/
def photoshopMarker : Bytes := asciiBytes "Photoshop 3.0" ++ [0]

/-- The repository's `read_iptc_keywords` (metadata.rs, lines 252-267), with
the file bytes already read. -/
def read_iptc_keywords (data : Bytes) : Option (List Str) :=
  match find_subsequence data photoshopMarker with
  | some i => parse_iptc_from_photoshop (data.drop (i + photoshopMarker.length)) []
  | none => some []

/-! ## Aggregator: `extract_person_tags` (metadata.rs, lines 10-42) -/

/-- The repository's `extract_person_tags`.  Inputs: the outcome of the
external EXIF container reader (`exifInput`, `none` = `Err`), the external
XML parser `parseFn`, and the file bytes.  Result `none` models a panic
escaping the engine (the source has no handler for one); `some (persons,
keywords)` is the normal result.  Stage order, merge order, sort, dedup and
the persons-from-keywords fallback follow the source line by line. -/
def extract_person_tags (exifInput : Option ExifData)
    (parseFn : Bytes → Option Xml) (data : Bytes) :
    Option (List Str × List Str) :=
  let exifK : List Str :=
    match read_exif_keywords exifInput with
    | some ks => ks
    | none => []
  match read_xmp_data parseFn data, read_iptc_keywords data with
  | some (xmpPersons, xmpKeywords), some iptcK =>
    let allKeywords := sortDedup (exifK ++ xmpKeywords ++ iptcK)
    let persons := sortDedup xmpPersons
    some (if persons = [] ∧ allKeywords ≠ [] then allKeywords else persons, allKeywords)
  | _, _ => none

/-! ## Concrete inputs used by the claim theorems -/

/-- Malformed-but-present XMP markers: an `xpacket` span that contains
`"</x:xmpmeta>"` before `"<x:xmpmeta"` (and no `"</x:xmpmeta>"` after it). -/
def badXmpInput : Bytes :=
  asciiBytes "<?xpacket begin</x:xmpmeta>AAAAAAAAAA<x:xmpmeta zz<?xpacket end"

/-- A synthetic well-formed Photoshop/8BIM stream: signature `"8BIM"`,
resource id `0x0404`, empty even-padded pascal name, big-endian 32-bit size
10, and as payload one IPTC-IIM record `(2, 25)` carrying `"Carol"`. -/
def carolStream : Bytes :=
  bytes8BIM ++ [0x04, 0x04] ++ [0x00, 0x00] ++ [0, 0, 0, 10] ++
  ([0x1C, 2, 25, 0, 5] ++ asciiBytes "Carol")

/-- An 8BIM block whose pascal-name length byte pushes the size field past
the end of the buffer. -/
def oversizedNameStream : Bytes :=
  bytes8BIM ++ [0x04, 0x04] ++ [200] ++ [0, 0, 0, 0, 0]

/-- An 8BIM block whose size field `0xFFFFFFFF` runs past the buffer. -/
def oversizedBlockStream : Bytes :=
  bytes8BIM ++ [0x04, 0x04] ++ [0x00, 0x00] ++ [0xFF, 0xFF, 0xFF, 0xFF]

/-- An IPTC record whose `field_len` `0xFFFF` runs past its payload. -/
def oversizedRecordStream : Bytes := [0x1C, 2, 25, 0xFF, 0xFF]

/-- The UTF-16LE bytes of `"Eve;Frank\0"`. -/
def eveFrankBytes : Bytes :=
  [69, 0, 118, 0, 101, 0, 59, 0, 70, 0, 114, 0, 97, 0, 110, 0, 107, 0, 0, 0]

/-- An `li` element with text `"People|Alice"`. -/
def liNode7 : Xml := Xml.elem (strOf "li") [] [Xml.text (strOf "People|Alice")]

/-- A `hierarchicalSubject` element wrapping `liNode7` in a bag. -/
def hierNode7 : Xml :=
  Xml.elem (strOf "hierarchicalSubject") [] [Xml.elem (strOf "Bag") [] [liNode7]]

/-- An XMP document whose only rule-matching content is a
`hierarchicalSubject` `li` with text `"People|Alice"`. -/
def doc7 : Xml := Xml.elem (strOf "xmpmeta") [] [hierNode7]

/-- An XMP document with a `hierarchicalSubject` `li` `"People|"` (category
matches, last part empty after trimming) next to a `subject` keyword `"Bob"`. -/
def doc10 : Xml :=
  Xml.elem (strOf "xmpmeta") []
    [Xml.elem (strOf "hierarchicalSubject") []
      [Xml.elem (strOf "li") [] [Xml.text (strOf "People|")]],
     Xml.elem (strOf "subject") []
      [Xml.elem (strOf "li") [] [Xml.text (strOf "Bob")]]]

/-- A minimal byte buffer containing an XMP chunk, used to drive the engine
to the XML stage. -/
def tinyXmpBytes : Bytes := asciiBytes "<x:xmpmeta a</x:xmpmeta>"

/-! ## Order lemmas for `strLe`, and sortedness/no-duplicates of `sortDedup` -/

/-- Characters with equal code points are equal. -/
theorem charToNat_inj {a b : Char} (h : a.toNat = b.toNat) : a = b := by
  have ha := Char.ofNat_toNat a
  rw [h, Char.ofNat_toNat] at ha
  exact ha.symm

/-- `strLe` is reflexive. -/
theorem strLe_refl (a : Str) : strLe a a = true := by
  induction a with
  | nil => rfl
  | cons x xs ih => simp [strLe, ih]

/-- `strLe` is total. -/
theorem strLe_total (a b : Str) : strLe a b = true ∨ strLe b a = true := by
  induction a generalizing b with
  | nil => left; rfl
  | cons x xs ih =>
    cases b with
    | nil => right; rfl
    | cons y ys =>
      rcases Nat.lt_trichotomy x.toNat y.toNat with h | h | h
      · left; simp [strLe, h]
      · have hxy : x = y := charToNat_inj h
        subst hxy
        rcases ih ys with h' | h'
        · left; simp [strLe, h']
        · right; simp [strLe, h']
      · right; simp [strLe, h, Nat.lt_asymm h]

/-- `strLe` is transitive. -/
theorem strLe_trans {a b c : Str} (hab : strLe a b = true) (hbc : strLe b c = true) :
    strLe a c = true := by
  induction a generalizing b c with
  | nil => rfl
  | cons x xs ih =>
    cases b with
    | nil => simp [strLe] at hab
    | cons y ys =>
      cases c with
      | nil => simp [strLe] at hbc
      | cons z zs =>
        simp only [strLe] at hab hbc ⊢
        rcases Nat.lt_trichotomy x.toNat y.toNat with h1 | h1 | h1
        · rcases Nat.lt_trichotomy y.toNat z.toNat with h2 | h2 | h2
          · simp [Nat.lt_trans h1 h2]
          · simp [h2 ▸ h1]
          · simp [h2, Nat.lt_asymm h2] at hbc
        · rcases Nat.lt_trichotomy y.toNat z.toNat with h2 | h2 | h2
          · simp [h1 ▸ h2]
          · have hxy : x = y := charToNat_inj h1
            subst hxy
            have hxz : x.toNat = z.toNat := h2
            simp [Nat.lt_irrefl] at hab
            simp [hxz, Nat.lt_irrefl] at hbc
            simp [hxz, Nat.lt_irrefl, ih hab hbc]
          · simp [h2, Nat.lt_asymm h2] at hbc
        · simp [h1, Nat.lt_asymm h1] at hab

/-- `strLe` is antisymmetric. -/
theorem strLe_antisymm {a b : Str} (hab : strLe a b = true) (hba : strLe b a = true) :
    a = b := by
  induction a generalizing b with
  | nil =>
    cases b with
    | nil => rfl
    | cons y ys => simp [strLe] at hba
  | cons x xs ih =>
    cases b with
    | nil => simp [strLe] at hab
    | cons y ys =>
      simp only [strLe] at hab hba
      rcases Nat.lt_trichotomy x.toNat y.toNat with h1 | h1 | h1
      · simp [h1, Nat.lt_asymm h1] at hba
      · have hxy : x = y := charToNat_inj h1
        subst hxy
        simp [Nat.lt_irrefl] at hab hba
        simp [ih hab hba]
      · simp [h1, Nat.lt_asymm h1] at hab

/-- Membership in `insertStr`. -/
theorem mem_insertStr {x s : Str} {l : List Str} :
    x ∈ insertStr s l ↔ x = s ∨ x ∈ l := by
  induction l with
  | nil => simp [insertStr]
  | cons t ts ih =>
    by_cases h : strLe s t = true
    · simp [insertStr, h]
    · simp [insertStr, h, ih]
      tauto

/-- Inserting into a `strLe`-sorted list keeps it sorted. -/
theorem pairwise_insertStr {s : Str} {l : List Str} (hl : l.Pairwise strLeP) :
    (insertStr s l).Pairwise strLeP := by
  induction l with
  | nil => simp [insertStr, strLeP]
  | cons t ts ih =>
    rcases List.pairwise_cons.mp hl with ⟨ht, hts⟩
    by_cases h : strLe s t = true
    · simp only [insertStr, if_pos h]
      refine List.pairwise_cons.mpr ⟨?_, hl⟩
      intro y hy
      rcases List.mem_cons.mp hy with rfl | hy'
      · exact h
      · exact strLe_trans h (ht y hy')
    · have hts' : strLe t s = true := by
        rcases strLe_total s t with h' | h'
        · exact absurd h' h
        · exact h'
      simp only [insertStr, if_neg h]
      refine List.pairwise_cons.mpr ⟨?_, ih hts⟩
      intro y hy
      rcases mem_insertStr.mp hy with rfl | hy'
      · exact hts'
      · exact ht y hy'

/-- Insertion sort yields a `strLe`-sorted list. -/
theorem pairwise_sortStrs (l : List Str) : (sortStrs l).Pairwise strLeP := by
  induction l with
  | nil => simp [sortStrs]
  | cons s ss ih => exact pairwise_insertStr ih

/-- Strict version of the order: `strLe` together with disequality. -/
def strLtP (a b : Str) : Prop := strLeP a b ∧ a ≠ b

/-- Core property of the dedup scan on a sorted list: the output is strictly
increasing, and every element is `≥` the previous kept element and differs
from it. -/
theorem dedupGo_spec {l : List Str} {prev : Str} (hl : l.Pairwise strLeP)
    (hprev : ∀ x ∈ l, strLeP prev x) :
    (dedupGo prev l).Pairwise strLtP ∧
      ∀ x ∈ dedupGo prev l, strLeP prev x ∧ x ≠ prev := by
  induction l generalizing prev with
  | nil => simp [dedupGo]
  | cons b rest ih =>
    rcases List.pairwise_cons.mp hl with ⟨hb, hrest⟩
    by_cases hbp : b = prev
    · subst hbp
      have := ih hrest (fun x hx => hb x hx)
      simpa [dedupGo] using this
    · have hpb : strLeP prev b := hprev b (List.mem_cons_self b rest)
      have hsub := ih hrest (fun x hx => hb x hx)
      refine ⟨?_, ?_⟩
      · simp only [dedupGo, if_neg hbp]
        refine List.pairwise_cons.mpr ⟨?_, hsub.1⟩
        intro y hy
        rcases hsub.2 y hy with ⟨hby, hyne⟩
        exact ⟨hby, fun h => hyne h.symm⟩
      · intro x hx
        simp only [dedupGo, if_neg hbp] at hx
        rcases List.mem_cons.mp hx with rfl | hx'
        · exact ⟨hpb, hbp⟩
        · rcases hsub.2 x hx' with ⟨hbx, hxb⟩
          refine ⟨strLe_trans hpb hbx, ?_⟩
          intro hxp
          rw [hxp] at hbx
          exact hbp (strLe_antisymm hbx hpb)

/-- `sortDedup` output is sorted. -/
theorem sortDedup_pairwise (l : List Str) : (sortDedup l).Pairwise strLeP := by
  unfold sortDedup
  cases hs : sortStrs l with
  | nil => simp [dedupAdj]
  | cons a rest =>
    have hp : (a :: rest).Pairwise strLeP := hs ▸ pairwise_sortStrs l
    rcases List.pairwise_cons.mp hp with ⟨ha, hrest⟩
    have hspec := dedupGo_spec hrest (fun x hx => ha x hx)
    simp only [dedupAdj]
    refine List.pairwise_cons.mpr ⟨?_, hspec.1.imp (fun h => h.1)⟩
    intro y hy
    exact (hspec.2 y hy).1

/-- `sortDedup` output has no duplicates. -/
theorem sortDedup_nodup (l : List Str) : (sortDedup l).Nodup := by
  unfold sortDedup
  cases hs : sortStrs l with
  | nil => simp [dedupAdj]
  | cons a rest =>
    have hp : (a :: rest).Pairwise strLeP := hs ▸ pairwise_sortStrs l
    rcases List.pairwise_cons.mp hp with ⟨ha, hrest⟩
    have hspec := dedupGo_spec hrest (fun x hx => ha x hx)
    simp only [dedupAdj]
    refine List.pairwise_cons.mpr ⟨?_, hspec.1.imp (fun h => h.2)⟩
    intro y hy
    exact fun h => (hspec.2 y hy).2 h.symm

/-- `sortDedup` of a non-empty list is non-empty. -/
theorem sortDedup_ne_nil {l : List Str} (h : l ≠ []) : sortDedup l ≠ [] := by
  unfold sortDedup
  cases hs : sortStrs l with
  | nil =>
    exfalso
    apply h
    cases l with
    | nil => rfl
    | cons s ss =>
      exfalso
      have : insertStr s (sortStrs ss) = [] := hs
      cases h' : sortStrs ss with
      | nil => rw [h'] at this; simp [insertStr] at this
      | cons t ts =>
        rw [h'] at this
        by_cases hle : strLe s t = true <;> simp [insertStr, hle] at this
  | cons a rest => simp [dedupAdj]

/-! ## Soundness of the search and fuel embeddings -/

/-- `prefixAt` decides the prefix relation. -/
theorem prefixAt_iff {α : Type} [DecidableEq α] (n : List α) :
    ∀ l : List α, prefixAt n l = true ↔ n <+: l := by
  induction n with
  | nil => intro l; simp [prefixAt]
  | cons a as ih =>
    intro l
    cases l with
    | nil => simp [prefixAt]
    | cons b bs =>
      by_cases hab : a = b
      · subst hab
        simp [prefixAt, ih, List.cons_prefix_cons]
      · simp [prefixAt, hab, List.cons_prefix_cons]

/-- The auxiliary scan reports `none` exactly when the needle starts at no
position of the remaining haystack. -/
theorem findSeqGo_none_iff {α : Type} [DecidableEq α] (n : List α) :
    ∀ (l : List α) (i : Nat),
      findSeqGo n l i = none ↔ ∀ j : Nat, ¬ prefixAt n (l.drop j) = true := by
  intro l
  induction l with
  | nil =>
    intro i
    by_cases hp : prefixAt n [] = true
    · simp [findSeqGo, hp]
    · simp [findSeqGo, hp]
  | cons a rest ih =>
    intro i
    by_cases hp : prefixAt n (a :: rest) = true
    · simp only [findSeqGo, if_pos hp]
      constructor
      · intro h; cases h
      · intro h; exact absurd hp (by simpa using h 0)
    · simp only [findSeqGo, if_neg hp, ih (i + 1)]
      constructor
      · intro h j
        cases j with
        | zero => simpa using hp
        | succ j' => simpa using h j'
      · intro h j
        simpa using h (j + 1)

/-- The marker search fails exactly when the marker occurs nowhere in the
buffer: the hypotheses of the no-metadata theorem state true absence. -/
theorem findSeq_eq_none_iff {α : Type} [DecidableEq α] (h n : List α) :
    findSeq h n = none ↔ ∀ i : Nat, ¬ n <+: h.drop i := by
  unfold findSeq
  rw [findSeqGo_none_iff]
  constructor
  · intro hh i hpre
    exact hh i ((prefixAt_iff n (h.drop i)).mpr hpre)
  · intro hh i hpre
    exact hh i ((prefixAt_iff n (h.drop i)).mp hpre)

/-- Fuel-independence of the inner IPTC scan: any fuel covering the
remaining buffer gives the same result, so `data.length + 1` faithfully
realises the source's unbounded `while` loop. -/
theorem iptcGo_fuel_sufficient (data : Bytes) :
    ∀ (f pos : Nat) (acc : List Str) (f' : Nat),
      data.length ≤ pos + f → data.length ≤ pos + f' →
      iptcGo data (f + 1) pos acc = iptcGo data (f' + 1) pos acc := by
  intro f
  induction f using Nat.strong_induction_on with
  | _ f IH =>
    intro pos acc f' hf hf'
    by_cases hc : pos + 5 ≤ data.length
    · obtain ⟨g, rfl⟩ := Nat.exists_eq_succ_of_ne_zero (show f ≠ 0 by omega)
      obtain ⟨g', rfl⟩ := Nat.exists_eq_succ_of_ne_zero (show f' ≠ 0 by omega)
      simp only [iptcGo, if_pos hc]
      cases hb : data[pos]? with
      | none => rfl
      | some b0 =>
        by_cases hb0 : b0 ≠ 0x1C
        · simp only [if_pos hb0]
          exact IH g (by omega) (pos + 1) acc g' (by omega) (by omega)
        · simp only [if_neg hb0]
          cases h1 : data[pos + 1]? with
          | none => rfl
          | some rn =>
            cases h2 : data[pos + 2]? with
            | none => rfl
            | some dn =>
              cases h3 : data[pos + 3]? with
              | none => rfl
              | some l1 =>
                cases h4 : data[pos + 4]? with
                | none => rfl
                | some l2 =>
                  by_cases hover : pos + 5 + (256 * l1 + l2) > data.length
                  · simp only [if_pos hover]
                  · simp only [if_neg hover]
                    cases hk : (if rn = 2 ∧ dn = 25 then
                        match sliceRange data (pos + 5) (pos + 5 + (256 * l1 + l2)) with
                        | none => none
                        | some payload =>
                          match utf8Decode payload with
                          | some s =>
                            some (if rustTrim s ≠ [] then acc ++ [rustTrim s] else acc)
                          | none =>
                            some (if rustTrim (payload.map latin1Char) ≠ [] then
                                    acc ++ [rustTrim (payload.map latin1Char)]
                                  else acc)
                      else some acc) with
                    | none => rfl
                    | some acc2 =>
                      exact IH g (by omega) (pos + 5 + (256 * l1 + l2)) acc2 g'
                        (by omega) (by omega)
    · simp only [iptcGo, if_neg hc]

/-- Fuel-independence of the outer 8BIM scan, as for `iptcGo`. -/
theorem psGo_fuel_sufficient (data : Bytes) :
    ∀ (f pos : Nat) (acc : List Str) (f' : Nat),
      data.length ≤ pos + f → data.length ≤ pos + f' →
      psGo data (f + 1) pos acc = psGo data (f' + 1) pos acc := by
  intro f
  induction f using Nat.strong_induction_on with
  | _ f IH =>
    intro pos acc f' hf hf'
    by_cases hc : pos + 12 ≤ data.length
    · obtain ⟨g, rfl⟩ := Nat.exists_eq_succ_of_ne_zero (show f ≠ 0 by omega)
      obtain ⟨g', rfl⟩ := Nat.exists_eq_succ_of_ne_zero (show f' ≠ 0 by omega)
      simp only [psGo, if_pos hc]
      cases hs : sliceRange data pos (pos + 4) with
      | none => rfl
      | some sig =>
        by_cases hsig : sig ≠ bytes8BIM
        · simp only [if_pos hsig]
          exact IH g (by omega) (pos + 1) acc g' (by omega) (by omega)
        · simp only [if_neg hsig]
          cases h4 : data[pos + 4]? with
          | none => rfl
          | some b4 =>
            cases h5 : data[pos + 5]? with
            | none => rfl
            | some b5 =>
              cases h6 : data[pos + 6]? with
              | none => rfl
              | some b6 =>
                have hpad : 1 ≤ paddedLen b6 := by unfold paddedLen; split <;> omega
                by_cases hso : pos + 6 + paddedLen b6 + 4 > data.length
                · simp only [if_pos hso]
                · simp only [if_neg hso]
                  cases hs0 : data[pos + 6 + paddedLen b6]? with
                  | none => rfl
                  | some s0 =>
                    cases hs1 : data[pos + 6 + paddedLen b6 + 1]? with
                    | none => rfl
                    | some s1 =>
                      cases hs2 : data[pos + 6 + paddedLen b6 + 2]? with
                      | none => rfl
                      | some s2 =>
                        cases hs3 : data[pos + 6 + paddedLen b6 + 3]? with
                        | none => rfl
                        | some s3 =>
                          by_cases hbe : pos + 6 + paddedLen b6 + 4 +
                              (((s0 * 256 + s1) * 256 + s2) * 256 + s3) > data.length
                          · simp only [if_pos hbe]
                          · simp only [if_neg hbe]
                            cases hk : (if 256 * b4 + b5 = 0x0404 then
                                match sliceRange data (pos + 6 + paddedLen b6 + 4)
                                    (pos + 6 + paddedLen b6 + 4 +
                                      (((s0 * 256 + s1) * 256 + s2) * 256 + s3)) with
                                | none => none
                                | some payload => parse_iptc_records payload acc
                              else some acc) with
                            | none => rfl
                            | some acc2 =>
                              by_cases hodd : (pos + 6 + paddedLen b6 + 4 +
                                  (((s0 * 256 + s1) * 256 + s2) * 256 + s3)) % 2 ≠ 0
                              · simp only [if_pos hodd]
                                exact IH g (by omega) _ acc2 g' (by omega) (by omega)
                              · simp only [if_neg hodd]
                                exact IH g (by omega) _ acc2 g' (by omega) (by omega)
    · simp only [psGo, if_neg hc]

/-- Any fuel of at least `data.length + 1` computes `parse_iptc_records`. -/
theorem parse_iptc_records_fuel (data : Bytes) (acc : List Str) (f : Nat)
    (h : data.length ≤ f) :
    iptcGo data (f + 1) 0 acc = parse_iptc_records data acc := by
  unfold parse_iptc_records
  exact iptcGo_fuel_sufficient data f 0 acc data.length (by omega) (by omega)

/-- Any fuel of at least `data.length + 1` computes
`parse_iptc_from_photoshop`. -/
theorem parse_iptc_from_photoshop_fuel (data : Bytes) (acc : List Str) (f : Nat)
    (h : data.length ≤ f) :
    psGo data (f + 1) 0 acc = parse_iptc_from_photoshop data acc := by
  unfold parse_iptc_from_photoshop
  exact psGo_fuel_sufficient data f 0 acc data.length (by omega) (by omega)

/-! ## Claim theorems -/

/-- C1: the claim "the extraction engine always returns a (persons, keywords)
result and never raises past a stage boundary, for all arrangements of
malformed-but-present XMP marker substrings" fails on the code: on
`badXmpInput` — an `"<?xpacket begin"` span containing `"</x:xmpmeta>"`
before `"<x:xmpmeta"` — the nested-span narrowing slices
`xml_chunk[meta_start..meta_end + 12]` with `meta_start = 37 > 27 =
meta_end + 12`, a reversed range, which panics in Rust.  The model returns
`none` (panic) for every EXIF outcome and every XML parser. -/
theorem c1_engine_panics_on_crossed_markers :
    (∀ (exifInput : Option ExifData) (parseFn : Bytes → Option Xml),
      extract_person_tags exifInput parseFn badXmpInput = none) ∧
    extract_xmp_from_bytes badXmpInput = none := by
  have h : extract_xmp_from_bytes badXmpInput = none := by decide
  refine ⟨?_, h⟩
  intro exifInput parseFn
  simp [extract_person_tags, read_xmp_data, h]

/-- C5: a synthetic well-formed Photoshop/8BIM stream holding an IPTC-IIM
record `(2, 25)` with payload `"Carol"` decodes to exactly the keyword
`"Carol"`. -/
theorem c5_carol_roundtrip :
    parse_iptc_from_photoshop carolStream [] = some [strOf "Carol"] := by
  decide

/-- C6: the EXIF XPKeywords decoder, applied to the UTF-16LE bytes of
`"Eve;Frank\0"`, yields the keywords `["Eve", "Frank"]` (bytes grouped
pairwise little-endian, decoded as UTF-16, trailing NULs stripped, split on
`;`, segments trimmed, empties dropped). -/
theorem c6_xpkeywords_eve_frank :
    read_exif_keywords (some ⟨some eveFrankBytes, none⟩) =
      some [strOf "Eve", strOf "Frank"] := by
  decide

/-- C9: the EXIF `ImageDescription` value never flows into the result — two
runs whose EXIF data differ only in that field return identical results, for
every parser, every input and every XPKeywords value. -/
theorem c9_image_description_unused (xb : Option Bytes) (d1 d2 : Option Str)
    (parseFn : Bytes → Option Xml) (data : Bytes) :
    extract_person_tags (some ⟨xb, d1⟩) parseFn data =
      extract_person_tags (some ⟨xb, d2⟩) parseFn data := rfl

/-- C10: there are inputs whose persons list contains the empty string while
the keyword fallback is suppressed: a `hierarchicalSubject` `li` `"People|"`
emits `""` as a person, so with keyword `"Bob"` present the engine returns
`persons = [""]` and `keywords = ["Bob"]` — no persons-from-keywords copy. -/
theorem c10_empty_person_suppresses_fallback :
    extract_person_tags none (fun _ => some doc10) tinyXmpBytes =
      some ([([] : Str)], [strOf "Bob"]) := by
  decide

/-- C8: when the bytes contain no XMP start marker (`"<x:xmpmeta"` or
`"<?xpacket begin"`), no `"Photoshop 3.0\0"` marker, and there is no
readable EXIF container (`exifInput = none`), the engine returns two empty
lists. -/
theorem c8_no_markers_empty_result (parseFn : Bytes → Option Xml) (data : Bytes)
    (h1 : findSeq data xmpmetaOpenB = none)
    (h2 : findSeq data xpacketBeginB = none)
    (h3 : find_subsequence data photoshopMarker = none) :
    extract_person_tags none parseFn data = some ([], []) := by
  simp [extract_person_tags, read_xmp_data, extract_xmp_from_bytes, xmpMarkerLoop,
    h1, h2, read_iptc_keywords, h3, read_exif_keywords, sortDedup, sortStrs, dedupAdj]

/-- C8 witness: the three markers are absent from `[1, 2, 3]` and the engine
returns two empty lists there. -/
theorem c8_no_markers_empty_result_witness :
    findSeq ([1, 2, 3] : Bytes) xmpmetaOpenB = none ∧
    findSeq ([1, 2, 3] : Bytes) xpacketBeginB = none ∧
    find_subsequence [1, 2, 3] photoshopMarker = none ∧
    extract_person_tags none (fun _ => none) [1, 2, 3] = some ([], []) :=
  ⟨by decide, by decide, by decide,
    c8_no_markers_empty_result (fun _ => none) [1, 2, 3] (by decide) (by decide) (by decide)⟩

/-- C2: the fallback law.  If the XMP person-classification stage yields zero
entries and the merged keyword set is non-empty, the returned persons list
equals (a copy of) the returned keywords list; if the stage yields at least
one entry, no replacement happens — the persons list is exactly the
sorted/deduplicated stage output. -/
theorem c2_fallback_law (exifInput : Option ExifData) (parseFn : Bytes → Option Xml)
    (data : Bytes) (xp xk ps ks : List Str)
    (hxmp : read_xmp_data parseFn data = some (xp, xk))
    (hres : extract_person_tags exifInput parseFn data = some (ps, ks)) :
    ((xp = [] ∧ ks ≠ []) → ps = ks) ∧ (xp ≠ [] → ps = sortDedup xp) := by
  unfold extract_person_tags at hres
  rw [hxmp] at hres
  cases hiptc : read_iptc_keywords data with
  | none => rw [hiptc] at hres; simp at hres
  | some ik =>
    rw [hiptc] at hres
    simp only [Option.some.injEq, Prod.mk.injEq] at hres
    obtain ⟨hps, hks⟩ := hres
    constructor
    · rintro ⟨hxpnil, hksne⟩
      subst hxpnil
      have hcond : sortDedup ([] : List Str) = [] := rfl
      rw [← hks]
      rw [← hps]
      simp [hcond, hks ▸ hksne]
    · intro hxpne
      have hne : sortDedup xp ≠ [] := sortDedup_ne_nil hxpne
      rw [← hps]
      simp [hne]

/-- C2 witness: with XPKeywords `"Eve;Frank\0"` and an empty XMP stage the
fallback fires and both lists coincide. -/
theorem c2_fallback_law_witness :
    read_xmp_data (fun _ => none) [] = some ([], []) ∧
    extract_person_tags (some ⟨some eveFrankBytes, none⟩) (fun _ => none) [] =
      some ([strOf "Eve", strOf "Frank"], [strOf "Eve", strOf "Frank"]) ∧
    [strOf "Eve", strOf "Frank"] = [strOf "Eve", strOf "Frank"] :=
  ⟨by decide, by decide,
    (c2_fallback_law (some ⟨some eveFrankBytes, none⟩) (fun _ => none) [] [] []
        [strOf "Eve", strOf "Frank"] [strOf "Eve", strOf "Frank"]
        (by decide) (by decide)).1 ⟨rfl, by decide⟩⟩

/-- C3: both returned lists are lexicographically sorted (byte-wise ordinal
order, expressed as the code-point order `strLe`, which coincides with it)
and contain no duplicates, whether or not the fallback copy fires. -/
theorem c3_sorted_nodup (exifInput : Option ExifData) (parseFn : Bytes → Option Xml)
    (data : Bytes) (ps ks : List Str)
    (hres : extract_person_tags exifInput parseFn data = some (ps, ks)) :
    ps.Pairwise strLeP ∧ ps.Nodup ∧ ks.Pairwise strLeP ∧ ks.Nodup := by
  unfold extract_person_tags at hres
  cases hxmp : read_xmp_data parseFn data with
  | none => rw [hxmp] at hres; simp at hres
  | some pr =>
    obtain ⟨xp, xk⟩ := pr
    rw [hxmp] at hres
    cases hiptc : read_iptc_keywords data with
    | none => rw [hiptc] at hres; simp at hres
    | some ik =>
      rw [hiptc] at hres
      simp only [Option.some.injEq, Prod.mk.injEq] at hres
      obtain ⟨hps, hks⟩ := hres
      have hkss : ks.Pairwise strLeP ∧ ks.Nodup := by
        rw [← hks]
        exact ⟨sortDedup_pairwise _, sortDedup_nodup _⟩
      refine ⟨?_, ?_, hkss.1, hkss.2⟩ <;> rw [← hps] <;> split
      · exact hks ▸ hkss.1
      · exact sortDedup_pairwise _
      · exact hks ▸ hkss.2
      · exact sortDedup_nodup _

/-- C3 witness: at a concrete input with keywords from two stages the result
lists are sorted and duplicate-free. -/
theorem c3_sorted_nodup_witness :
    extract_person_tags (some ⟨some eveFrankBytes, none⟩) (fun _ => some doc10) tinyXmpBytes =
      some ([([] : Str)], [strOf "Bob", strOf "Eve", strOf "Frank"]) ∧
    ([([] : Str)].Pairwise strLeP ∧ [([] : Str)].Nodup ∧
      [strOf "Bob", strOf "Eve", strOf "Frank"].Pairwise strLeP ∧
      [strOf "Bob", strOf "Eve", strOf "Frank"].Nodup) :=
  ⟨by decide,
    c3_sorted_nodup (some ⟨some eveFrankBytes, none⟩) (fun _ => some doc10) tinyXmpBytes
      [([] : Str)] [strOf "Bob", strOf "Eve", strOf "Frank"] (by decide)⟩

/-- C4: bounds-abort behaviour of the IRB scan.  (1) If at a matched
`"8BIM"` header the padded-name-derived size field would sit past the end of
the buffer, the scan stops there and returns exactly the accumulated earlier
keywords.  (2) If the size field fits but the declared payload would run
past the buffer, likewise.  (3) The inner IPTC-IIM scan likewise aborts with
the accumulated keywords when a record's `field_len` runs past its payload.
In all three cases the result is `some` — no out-of-bounds read (`none`)
occurs, and nothing is appended. -/
theorem c4_bounds_abort :
    (∀ (data : Bytes) (fuel pos : Nat) (acc : List Str) (b6 : Nat),
      pos + 12 ≤ data.length →
      sliceRange data pos (pos + 4) = some bytes8BIM →
      data[pos + 6]? = some b6 →
      pos + 6 + paddedLen b6 + 4 > data.length →
      psGo data (fuel + 1) pos acc = some acc) ∧
    (∀ (data : Bytes) (fuel pos : Nat) (acc : List Str) (b6 s0 s1 s2 s3 : Nat),
      pos + 12 ≤ data.length →
      sliceRange data pos (pos + 4) = some bytes8BIM →
      data[pos + 6]? = some b6 →
      pos + 6 + paddedLen b6 + 4 ≤ data.length →
      data[pos + 6 + paddedLen b6]? = some s0 →
      data[pos + 6 + paddedLen b6 + 1]? = some s1 →
      data[pos + 6 + paddedLen b6 + 2]? = some s2 →
      data[pos + 6 + paddedLen b6 + 3]? = some s3 →
      pos + 6 + paddedLen b6 + 4 + (((s0 * 256 + s1) * 256 + s2) * 256 + s3) >
        data.length →
      psGo data (fuel + 1) pos acc = some acc) ∧
    (∀ (data : Bytes) (fuel pos : Nat) (acc : List Str) (rn dn l1 l2 : Nat),
      pos + 5 ≤ data.length →
      data[pos]? = some 0x1C →
      data[pos + 1]? = some rn →
      data[pos + 2]? = some dn →
      data[pos + 3]? = some l1 →
      data[pos + 4]? = some l2 →
      pos + 5 + (256 * l1 + l2) > data.length →
      iptcGo data (fuel + 1) pos acc = some acc) := by
  refine ⟨?_, ?_, ?_⟩
  · rintro data fuel pos acc b6 hlen hsig hb6 hover
    obtain ⟨b4, hb4⟩ : ∃ b, data[pos + 4]? = some b :=
      ⟨_, List.getElem?_eq_getElem (by omega)⟩
    obtain ⟨b5, hb5⟩ : ∃ b, data[pos + 5]? = some b :=
      ⟨_, List.getElem?_eq_getElem (by omega)⟩
    simp only [psGo]
    rw [if_pos hlen, hsig]
    simp [hb4, hb5, hb6, hover]
  · rintro data fuel pos acc b6 s0 s1 s2 s3 hlen hsig hb6 hso hs0 hs1 hs2 hs3 hover
    obtain ⟨b4, hb4⟩ : ∃ b, data[pos + 4]? = some b :=
      ⟨_, List.getElem?_eq_getElem (by omega)⟩
    obtain ⟨b5, hb5⟩ : ∃ b, data[pos + 5]? = some b :=
      ⟨_, List.getElem?_eq_getElem (by omega)⟩
    simp only [psGo]
    rw [if_pos hlen, hsig]
    simp [hb4, hb5, hb6, hs0, hs1, hs2, hs3, Nat.not_lt.mpr hso, hover]
  · rintro data fuel pos acc rn dn l1 l2 hlen hp0 hp1 hp2 hp3 hp4 hover
    simp only [iptcGo]
    rw [if_pos hlen, hp0]
    simp [hp1, hp2, hp3, hp4, hover]

/-- C4 witness: concrete oversized blocks.  A name-length byte of 200 in a
12-byte stream, a block size of `0xFFFFFFFF` in a 12-byte stream, and a
record `field_len` of `0xFFFF` in a 5-byte payload each stop the scan with
the previously decoded keywords intact. -/
theorem c4_bounds_abort_witness :
    psGo oversizedNameStream 13 0 [strOf "Prev"] = some [strOf "Prev"] ∧
    psGo oversizedBlockStream 13 0 [strOf "Prev"] = some [strOf "Prev"] ∧
    iptcGo oversizedRecordStream 6 0 [strOf "Prev"] = some [strOf "Prev"] :=
  ⟨c4_bounds_abort.1 oversizedNameStream 12 0 [strOf "Prev"] 200
      (by decide) (by decide) (by decide) (by decide),
    c4_bounds_abort.2.1 oversizedBlockStream 12 0 [strOf "Prev"] 0 255 255 255 255
      (by decide) (by decide) (by decide) (by decide) (by decide) (by decide)
      (by decide) (by decide) (by decide),
    c4_bounds_abort.2.2 oversizedRecordStream 5 0 [strOf "Prev"] 2 25 255 255
      (by decide) (by decide) (by decide) (by decide) (by decide) (by decide)
      (by decide)⟩

/-- C7: for every XMP document, each `li` descendant of a
`hierarchicalSubject` element whose trimmed text contains `|` is split on
`|`, and when there are at least two parts and the lower-cased first part
contains `people`/`person`/`人物`/`人`, the trimmed last part is emitted as a
person; in particular the document whose only rule-matching content is a
`hierarchicalSubject` `li` `"People|Alice"` produces `persons = ["Alice"]`. -/
theorem c7_hierarchical_subject_rule :
    (∀ (doc hn c : Xml) (t : Str),
      hn ∈ doc.descendants →
      hn.localName = strOf "hierarchicalSubject" →
      c ∈ hn.descendants →
      c.localName = strOf "li" →
      c.textOf = some t →
      (rustTrim t).contains '|' = true →
      (splitSep '|' (rustTrim t)).length ≥ 2 →
      (strContains (toLowerStr ((splitSep '|' (rustTrim t)).headD [])) (strOf "people") = true ∨
       strContains (toLowerStr ((splitSep '|' (rustTrim t)).headD [])) (strOf "person") = true ∨
       strContains (toLowerStr ((splitSep '|' (rustTrim t)).headD [])) (strOf "人物") = true ∨
       strContains (toLowerStr ((splitSep '|' (rustTrim t)).headD [])) (strOf "人") = true) →
      rustTrim ((splitSep '|' (rustTrim t)).getLastD []) ∈ (parse_xmp_xml doc).1) ∧
    parse_xmp_xml doc7 = ([strOf "Alice"], []) := by
  constructor
  · intro doc hn c t hmem hname hcmem hcname htext hbar hlen hcat
    unfold parse_xmp_xml
    apply List.mem_flatMap.mpr
    refine ⟨hn, hmem, ?_⟩
    unfold nodePersons
    rw [hname]
    have hreg : ¬(strOf "hierarchicalSubject" = strOf "RegionList" ∨
        strOf "hierarchicalSubject" = strOf "Regions" ∨
        strOf "hierarchicalSubject" = strOf "RegionInfo") := by decide
    have htags : ¬(strOf "hierarchicalSubject" = strOf "TagsList") := by decide
    rw [if_neg hreg, if_pos rfl, if_neg htags]
    simp only [List.nil_append, List.append_nil]
    apply List.mem_flatMap.mpr
    refine ⟨c, hcmem, ?_⟩
    unfold hierSubjectLiPersons
    rw [hcname, if_pos rfl, htext]
    simp only [hbar, if_pos rfl, ge_iff_le, hlen, if_true]
    rw [if_pos hcat]
    exact List.mem_singleton.mpr rfl
  · decide

/-- C7 witness: instantiating the rule at `doc7` puts `"Alice"` in the
persons list. -/
theorem c7_hierarchical_subject_rule_witness :
    hierNode7 ∈ doc7.descendants ∧ liNode7 ∈ hierNode7.descendants ∧
    rustTrim ((splitSep '|' (rustTrim (strOf "People|Alice"))).getLastD []) ∈
      (parse_xmp_xml doc7).1 :=
  ⟨by simp [doc7, hierNode7, Xml.descendants, Xml.descendants.go],
    by simp [hierNode7, liNode7, Xml.descendants, Xml.descendants.go],
    c7_hierarchical_subject_rule.1 doc7 hierNode7 liNode7 (strOf "People|Alice")
      (by simp [doc7, hierNode7, Xml.descendants, Xml.descendants.go])
      (by decide)
      (by simp [hierNode7, liNode7, Xml.descendants, Xml.descendants.go])
      (by decide) (by decide) (by decide) (by decide) (by decide)⟩
